import Mathlib

/-!
Shallow embedding of the `factory` test-data library (Go).

Source files embedded:
  * `builder.go`   — `Builder`, `LoadPrototype`, `Build` (variable expansion),
                     `Instance` lookup, `Save`, `Find`, `varReplacementRegex`.
  * `instance.go`  — `Instance`, `Get`, `With`, `persist`, `insert`, `update`.

External collaborators (squirrel SQL formatting, JSON parsing, the database
channels, UUID generation) are modelled as structured data / oracle functions:
statements are an inductive `Stmt` rather than SQL text, row contents are
association lists of JSON-like values, and the persist/query channels are
caller-supplied functions, exactly as in the Go API.
-/

namespace Factory

/-- JSON-representable values stored in a row's contents.  Go holds these as
`map[string]interface{}` after `json.Unmarshal`; numbers are modelled as `Int`
(no claim exercises numeric values). -/
inductive Value where
  | null : Value
  | bool (b : Bool) : Value
  | num (n : Int) : Value
  | str (s : String) : Value
  | arr (elems : List Value) : Value

/-- A row's contents: association list from column name to value, with the
map semantics of Go's `map[string]interface{}` (unique keys). -/
abbrev Contents := List (String × Value)

/-- Setting a key in a content map: overwrite in place if present, append
otherwise.  Models `newContents[attr] = value` on a Go map. -/
def setKey : Contents → String → Value → Contents
  | [], a, v => [(a, v)]
  | (k, w) :: rest, a, v =>
      if k = a then (a, v) :: rest else (k, w) :: setKey rest a v

/-- SQL statements, structured.  The squirrel library that renders these to
text with placeholders is an external collaborator and is not re-modelled. -/
inductive Stmt where
  | insert (table : String) (pairs : Contents) : Stmt
  | update (table : String) (setPairs : Contents) (whereEq : Contents) : Stmt
  | select (table : String) (whereEq : Contents) : Stmt

/-- `instance.go`: the `Instance` struct.  `baseBuilder` (used only for the
placeholder dialect, an external concern) is omitted; `name` and `buildOnly`
are the fields `builder.go` reads and writes on instances. -/
structure Instance where
  name : String
  persistedContents : Contents
  contents : Contents
  tableName : String
  persisted : Bool
  buildOnly : Bool

/-- `instance.go` `Get`: returns `contents[attr]`, or panics
`could not find attribute <attr>` when the key is absent.  Panics are
modelled as `Except.error` carrying the panic message. -/
def Instance.Get (i : Instance) (attr : String) : Except String Value :=
  match i.contents.lookup attr with
  | some v => Except.ok v
  | none => Except.error ("could not find attribute " ++ attr)

/-- `instance.go` `With`: copies the current contents, sets/overwrites the
key, installs the copy as the instance's contents.  In Go the same pointer is
returned; here the updated instance value is returned. -/
def Instance.With (i : Instance) (attr : String) (value : Value) : Instance :=
  { i with contents := setKey i.contents attr value }

/-- `instance.go` `insert`: INSERT listing every key/value of `contents`. -/
def Instance.insertStmt (i : Instance) : Stmt :=
  Stmt.insert i.tableName i.contents

/-- `instance.go` `update`: UPDATE with SET from all of `contents` and a WHERE
conjunction of equality predicates over every pair of `persistedContents`. -/
def Instance.updateStmt (i : Instance) : Stmt :=
  Stmt.update i.tableName i.contents i.persistedContents

/-- `instance.go` `persist`, statement choice: builds the insert, replaced by
the update exactly when `persisted` is already true. -/
def Instance.persistStmt (i : Instance) : Stmt :=
  if i.persisted then i.updateStmt else i.insertStmt

/-- The caller-supplied execute channel (`PersistFunc`): succeeds or fails
with a message.  The channel receives the built statement. -/
abbrev PersistFn := Stmt → Except String Unit

/-- `instance.go` `persist`: issue the chosen statement on the channel; on
success set `persisted = true` and `persistedContents = contents`; on failure
return the wrapped error and leave the instance unchanged. -/
def Instance.persist (f : PersistFn) (i : Instance) : Except String Instance :=
  match f i.persistStmt with
  | Except.ok _ =>
      Except.ok { i with persisted := true, persistedContents := i.contents }
  | Except.error e => Except.error ("could not persist: " ++ e)

/-- Outcome of `Builder.Save`: the registry state when the loop stops, the
statements issued on the execute channel in order, and the panic message if
persistence failed (`none` on success). -/
structure SaveResult where
  instances : List Instance
  issued : List Stmt
  panicMsg : Option String

/-- `builder.go` `Save`: iterate the registry in registration order, skip
build-only instances, persist each remaining one, and on the first failure
stop and panic `error saving <name>: <err>` leaving the failing instance and
all later ones untouched. -/
def saveList (f : PersistFn) : List Instance → SaveResult
  | [] => ⟨[], [], none⟩
  | i :: rest =>
      if i.buildOnly then
        let r := saveList f rest
        ⟨i :: r.instances, r.issued, r.panicMsg⟩
      else
        match f i.persistStmt with
        | Except.ok _ =>
            let r := saveList f rest
            ⟨{ i with persisted := true, persistedContents := i.contents } :: r.instances,
              i.persistStmt :: r.issued, r.panicMsg⟩
        | Except.error e =>
            ⟨i :: rest, [i.persistStmt],
              some ("error saving " ++ i.name ++ ": could not persist: " ++ e)⟩

/-- The `Prototype` struct (fields as used by `builder.go` and its tests:
`TableName`, `Outline`, `Name`, `BuildOnly`). -/
structure Prototype where
  tableName : String
  outline : String
  protoName : Option String
  buildOnly : Bool

/-- The `Builder` struct: prototype registry and instance registry.  The
setter functions and the external channels are threaded explicitly into the
operations that use them. -/
structure Builder where
  prototypes : List (String × Prototype)
  instances : List Instance

/-- Setting a key in the prototype registry map (Go map assignment). -/
def setProto : List (String × Prototype) → String → Prototype → List (String × Prototype)
  | [], a, p => [(a, p)]
  | (k, q) :: rest, a, p =>
      if k = a then (a, p) :: rest else (k, q) :: setProto rest a p

/-- `builder.go` `LoadPrototype`: `b.prototypes[prototype.TableName] = prototype`.
The registry key is always the table name; the prototype's `Name` field is
not consulted. -/
def Builder.LoadPrototype (b : Builder) (p : Prototype) : Builder :=
  { b with prototypes := setProto b.prototypes p.tableName p }

/-- Modelled from the spec: `register(blueprint)` stores the blueprint keyed
by alias if present, else by table name (the behavior the repository's own
test `TestLoadPrototypeCustomNameAndCreateInstance` and README describe; the
`LoadPrototype` in `builder.go` does not implement it). -/
def registerSpec (reg : List (String × Prototype)) (p : Prototype) : List (String × Prototype) :=
  setProto reg (p.protoName.getD p.tableName) p

/-- `builder.go` `Build`, prototype lookup step (lines 64-67): fetch the
prototype under the given key, panicking
`could not build instance of <key>: no prototype found` on a miss.  The rest
of `Build` (outline expansion, JSON parse, instance construction) is modelled
by `expandVars` and `buildInstance` below. -/
def Builder.buildLookup (b : Builder) (prototypeName : String) : Except String Prototype :=
  match b.prototypes.lookup prototypeName with
  | some p => Except.ok p
  | none =>
      Except.error ("could not build instance of " ++ prototypeName ++ ": no prototype found")

/-- `builder.go` `Build`, instance construction step (lines 86-99): name the
instance after the optional explicit name, else the prototype key; the
instance's table name is the prototype KEY passed to `Build`; `buildOnly`
comes from the prototype. -/
def buildInstance (p : Prototype) (prototypeName : String) (instanceName : Option String)
    (contents : Contents) : Instance :=
  { name := instanceName.getD prototypeName
    persistedContents := []
    contents := contents
    tableName := prototypeName
    persisted := false
    buildOnly := p.buildOnly }

/-- `builder.go` `Instance`, the scan loop (lines 112-121): walk the registry
in order; on a name match return it when the countdown reaches zero, else
decrement and continue.  The Go index is an `int`; the claims address the
0-based indexes, modelled as `Nat`. -/
def instanceLoop (insts : List Instance) (name : String) : Nat → Option Instance
  | i =>
    match insts, i with
    | [], _ => none
    | inst :: rest, i =>
        if inst.name = name then
          match i with
          | 0 => some inst
          | n + 1 => instanceLoop rest name n
        else instanceLoop rest name i

/-- `builder.go` `Instance`: the loop above, panicking
`no instance <name> found` when it finds nothing. -/
def Builder.InstanceByName (b : Builder) (name : String) (index : Nat) : Except String Instance :=
  match instanceLoop b.instances name index with
  | some inst => Except.ok inst
  | none => Except.error ("no instance " ++ name ++ " found")

/-- The caller-supplied query channel, post JSON parse: given the SELECT it
returns the parsed row objects or fails.  (`NewQueryFunc` and
`json.Unmarshal` of its output are external collaborators.) -/
abbrev QueryFn := Stmt → Except String (List Contents)

/-- `builder.go` `Find`, row-instance construction (lines 176-185): each row
becomes an instance with `persisted = true`, `buildOnly = true`, and the row
as both `contents` and `persistedContents`. -/
def rowInstance (name table : String) (c : Contents) : Instance :=
  { name := name
    persistedContents := c
    contents := c
    tableName := table
    persisted := true
    buildOnly := true }

/-- `builder.go` `Find`: build the SELECT from the equality filter, run the
query channel, turn each returned row into a row instance (named after the
optional explicit name, else the table), append them all to the registry in
order, and return them. -/
def Builder.Find (b : Builder) (qf : QueryFn) (table : String) (filter : Contents)
    (instanceName : Option String) : Except String (Builder × List Instance) :=
  match qf (Stmt.select table filter) with
  | Except.error e =>
      Except.error ("could not query from " ++ table ++ ": " ++ e)
  | Except.ok rows =>
      let nm := instanceName.getD table
      let out := rows.map (rowInstance nm table)
      Except.ok ({ b with instances := b.instances ++ out }, out)

/-! ### Variable substitution (`varReplacementRegex` and the `Build` loop) -/

/-- One character of the regex character class `[a-zA-z0-9]` from
`builder.go` line 18.  Note the class is written with a lowercase `z` closing
the second range, so it is `a`-`z` (97-122), `A`-`z` (65-122) and `0`-`9`
(48-57); the range 91-96 (bracket, backslash, caret, underscore, backquote)
is therefore included. -/
def isClassChar (c : Char) : Bool :=
  (decide (97 ≤ c.toNat) && decide (c.toNat ≤ 122)) ||
  (decide (65 ≤ c.toNat) && decide (c.toNat ≤ 122)) ||
  (decide (48 ≤ c.toNat) && decide (c.toNat ≤ 57))

/-- Matching engine for `varReplacementRegex.FindAllStringSubmatch`: scan
left to right; at a position starting with two opening braces followed by a
nonempty run of class characters followed by two closing braces, emit the
(whole match, captured group) pair and resume after the match; otherwise
advance one character.  The `skip` counter implements resuming after a match
while keeping the recursion structural. -/
def fmGo : List Char → Nat → List (List Char × List Char)
  | [], _ => []
  | _ :: tl, k + 1 => fmGo tl k
  | '{' :: '{' :: rest, 0 =>
      (match rest.takeWhile isClassChar, rest.dropWhile isClassChar with
       | c :: run, '}' :: '}' :: _ =>
           ('{' :: '{' :: ((c :: run) ++ ['}', '}']), c :: run) ::
             fmGo ('{' :: rest) ((c :: run).length + 3)
       | _, _ => fmGo ('{' :: rest) 0)
  | _ :: tl, 0 => fmGo tl 0

/-- All matches of `varReplacementRegex` in the outline, as
(whole match, submatch) string pairs. -/
def findMatches (outline : String) : List (String × String) :=
  (fmGo outline.data 0).map (fun m => (String.mk m.1, String.mk m.2))

/-- `strings.ReplaceAll`, character level: replace every non-overlapping
occurrence of `old` left to right, never rescanning replacement text.  The
`skip` counter consumes the tail of a match structurally.  (`Build` only ever
replaces whole regex matches, which are nonempty and start with a brace.) -/
def raGo (old new : List Char) : List Char → Nat → List Char
  | [], _ => []
  | _ :: tl, k + 1 => raGo old new tl k
  | c :: tl, 0 =>
      if old.isPrefixOf (c :: tl) then new ++ raGo old new tl (old.length - 1)
      else c :: raGo old new tl 0

/-- `strings.ReplaceAll` on strings. -/
def replaceAll (s old new : String) : String :=
  String.mk (raGo old.data new.data s.data 0)

/-- A registered setter function: Go closures are impure, so a generator is
modelled by the sequence of values it returns on successive invocations
(`g n` is the value of the `n`-th invocation, 0-based). -/
abbrev Generator := Nat → String

/-- Per-generator invocation counters. -/
abbrev Counters := List (String × Nat)

def bumpCount : Counters → String → Counters
  | [], a => [(a, 1)]
  | (k, n) :: rest, a =>
      if k = a then (a, n + 1) :: rest else (k, n) :: bumpCount rest a

def getCount (cnt : Counters) (a : String) : Nat :=
  (cnt.lookup a).getD 0

/-- `builder.go` `Build`, the expansion loop (lines 71-78): for each regex
match in turn, look up the setter function by the captured group (panicking
`no setter function called <name> found` on a miss), invoke it once, and
replace ALL remaining occurrences of the whole match text with that single
value via `strings.ReplaceAll`. -/
def expandLoop (funcs : List (String × Generator)) :
    List (String × String) → String → Counters → Except String (String × Counters)
  | [], s, cnt => Except.ok (s, cnt)
  | (whole, nm) :: rest, s, cnt =>
      match funcs.lookup nm with
      | none => Except.error ("no setter function called " ++ nm ++ " found")
      | some g =>
          expandLoop funcs rest (replaceAll s whole (g (getCount cnt nm))) (bumpCount cnt nm)

/-- `builder.go` `Build` lines 71-78 as a whole: compute the match list from
the original outline once, then run the replacement loop.  Returns the
expanded outline together with how often each generator was invoked. -/
def expandVars (funcs : List (String × Generator)) (outline : String) :
    Except String (String × Counters) :=
  expandLoop funcs (findMatches outline) outline []

end Factory

namespace Factory

/-! ### Helper lemmas -/

theorem lookup_eq_none_iff_keys {β : Type} (l : List (String × β)) (a : String) :
    l.lookup a = none ↔ a ∉ l.map Prod.fst := by
  induction l with
  | nil => simp [List.lookup]
  | cons p rest ih =>
    obtain ⟨k, w⟩ := p
    simp only [List.lookup, List.map_cons, List.mem_cons]
    rcases eq_or_ne a k with h | h
    · simp [h]
    · simp [h, beq_eq_false_iff_ne.2 h, ih]

theorem lookup_setKey (l : Contents) (a k : String) (v : Value) :
    (setKey l a v).lookup k = if k = a then some v else l.lookup k := by
  induction l with
  | nil =>
    rcases eq_or_ne k a with h | h
    · simp [setKey, List.lookup, h]
    · simp [setKey, List.lookup, h, beq_eq_false_iff_ne.2 h]
  | cons p rest ih =>
    obtain ⟨k', w⟩ := p
    rcases eq_or_ne k' a with h1 | h1
    · rcases eq_or_ne k a with h2 | h2
      · simp [setKey, List.lookup, h1, h2]
      · simp [setKey, List.lookup, h1, h2, beq_eq_false_iff_ne.2 h2,
          beq_eq_false_iff_ne.2 (h1 ▸ h2)]
    · rcases eq_or_ne k k' with h2 | h2
      · simp [setKey, List.lookup, h1, h2, beq_eq_false_iff_ne.2 (h2 ▸ h1), ih]
      · simp [setKey, List.lookup, h1, h2, beq_eq_false_iff_ne.2 h2, ih]

theorem foldl_With_frame (muts : List (String × Value)) (i : Instance) :
    (muts.foldl (fun j kv => j.With kv.1 kv.2) i).persistedContents = i.persistedContents ∧
    (muts.foldl (fun j kv => j.With kv.1 kv.2) i).persisted = i.persisted ∧
    (muts.foldl (fun j kv => j.With kv.1 kv.2) i).name = i.name ∧
    (muts.foldl (fun j kv => j.With kv.1 kv.2) i).tableName = i.tableName ∧
    (muts.foldl (fun j kv => j.With kv.1 kv.2) i).buildOnly = i.buildOnly := by
  induction muts generalizing i with
  | nil => simp
  | cons kv rest ih => simpa [Instance.With] using ih (i.With kv.1 kv.2)

/-- Sample data shared by the concrete witnesses below. -/
def sampleContents : Contents := [("id", Value.str "u1"), ("username", Value.str "jenny")]

def sampleInstance : Instance :=
  { name := "jenny1"
    persistedContents := []
    contents := sampleContents
    tableName := "users"
    persisted := false
    buildOnly := false }

/-! ### C3 -/

/-- C3: `With(k, v)` installs a fresh copy of the current contents with key
`k` set/overwritten (lookups of `k` now yield `v`, other keys are untouched)
and leaves `persistedContents`, `persisted`, `name`, `tableName` and
`buildOnly` unchanged; moreover no sequence of `With` calls ever changes the
`persistedContents` snapshot or the `persisted` flag. -/
theorem c3_with_frame (i : Instance) (a k : String) (v : Value)
    (muts : List (String × Value)) (hk : k ≠ a) :
    (i.With a v).persistedContents = i.persistedContents ∧
    (i.With a v).persisted = i.persisted ∧
    (i.With a v).name = i.name ∧
    (i.With a v).tableName = i.tableName ∧
    (i.With a v).buildOnly = i.buildOnly ∧
    (i.With a v).contents.lookup a = some v ∧
    (i.With a v).contents.lookup k = i.contents.lookup k ∧
    (muts.foldl (fun j kv => j.With kv.1 kv.2) i).persistedContents = i.persistedContents ∧
    (muts.foldl (fun j kv => j.With kv.1 kv.2) i).persisted = i.persisted := by
  refine ⟨rfl, rfl, rfl, rfl, rfl, ?_, ?_, (foldl_With_frame muts i).1,
    (foldl_With_frame muts i).2.1⟩
  · simp [Instance.With, lookup_setKey]
  · simp [Instance.With, lookup_setKey, hk]

theorem c3_witness :
    ("id" : String) ≠ "username" ∧
    ((sampleInstance.With "username" (Value.str "johnny")).persistedContents =
        sampleInstance.persistedContents ∧
      (sampleInstance.With "username" (Value.str "johnny")).persisted =
        sampleInstance.persisted ∧
      (sampleInstance.With "username" (Value.str "johnny")).name = sampleInstance.name ∧
      (sampleInstance.With "username" (Value.str "johnny")).tableName =
        sampleInstance.tableName ∧
      (sampleInstance.With "username" (Value.str "johnny")).buildOnly =
        sampleInstance.buildOnly ∧
      (sampleInstance.With "username" (Value.str "johnny")).contents.lookup "username" =
        some (Value.str "johnny") ∧
      (sampleInstance.With "username" (Value.str "johnny")).contents.lookup "id" =
        sampleInstance.contents.lookup "id" ∧
      (([("city", Value.str "berlin")] :
            List (String × Value)).foldl (fun j kv => j.With kv.1 kv.2)
          sampleInstance).persistedContents = sampleInstance.persistedContents ∧
      (([("city", Value.str "berlin")] :
            List (String × Value)).foldl (fun j kv => j.With kv.1 kv.2)
          sampleInstance).persisted = sampleInstance.persisted) :=
  ⟨by decide,
    c3_with_frame sampleInstance "username" "id" (Value.str "johnny")
      [("city", Value.str "berlin")] (by decide)⟩

/-! ### C7 -/

theorem instanceLoop_eq_filter_getElem (insts : List Instance) (name : String) (i : Nat) :
    instanceLoop insts name i = (insts.filter (fun inst => inst.name == name))[i]? := by
  induction insts generalizing i with
  | nil => simp [instanceLoop]
  | cons inst rest ih =>
    rcases eq_or_ne inst.name name with h | h
    · cases i with
      | zero => simp [instanceLoop, h]
      | succ n => simp [instanceLoop, h, ih]
    · simp [instanceLoop, h, beq_eq_false_iff_ne.2 h, ih]

/-- C7: `Instance(name, i)` returns the `i`-th entry (0-based) among the
registry entries named `name`, in registration order (it equals indexing into
the name-filtered registry), and fails with the `no instance <name> found`
panic exactly when the count of same-named entries is at most `i` — in
particular exactly when no entry has that name or the index is out of range. -/
theorem c7_instance_lookup (b : Builder) (name : String) (i : Nat) :
    instanceLoop b.instances name i =
      (b.instances.filter (fun inst => inst.name == name))[i]? ∧
    (b.InstanceByName name i = Except.error ("no instance " ++ name ++ " found") ↔
      (b.instances.filter (fun inst => inst.name == name)).length ≤ i) ∧
    (∀ inst, b.InstanceByName name i = Except.ok inst ↔
      (b.instances.filter (fun inst2 => inst2.name == name))[i]? = some inst) := by
  refine ⟨instanceLoop_eq_filter_getElem b.instances name i, ?_, ?_⟩
  · rw [Builder.InstanceByName, instanceLoop_eq_filter_getElem]
    constructor
    · intro h
      cases hh : (b.instances.filter (fun inst => inst.name == name))[i]? with
      | none => exact List.getElem?_eq_none_iff.1 hh
      | some x => rw [hh] at h; cases h
    · intro h
      rw [List.getElem?_eq_none h]
  · intro inst
    rw [Builder.InstanceByName, instanceLoop_eq_filter_getElem]
    cases hh : (b.instances.filter (fun inst2 => inst2.name == name))[i]? with
    | none => simp
    | some x => simp

end Factory

namespace Factory

/-! ### C10 -/

/-- C10: the public accessor `Get(a)` aborts the call (panics
`could not find attribute <a>`) exactly when `a` is not a key of the
instance's current contents, and otherwise returns the stored value. -/
theorem c10_get_unknown_attribute (i : Instance) (attr : String) (v : Value)
    (hv : i.contents.lookup attr = some v) :
    (∀ a, i.Get a = Except.error ("could not find attribute " ++ a) ↔
        a ∉ i.contents.map Prod.fst) ∧
    i.Get attr = Except.ok v := by
  constructor
  · intro a
    rw [← lookup_eq_none_iff_keys]
    unfold Instance.Get
    cases h : i.contents.lookup a with
    | none => simp
    | some w => simp
  · unfold Instance.Get
    rw [hv]

theorem c10_witness :
    sampleInstance.contents.lookup "username" = some (Value.str "jenny") ∧
    ((∀ a, sampleInstance.Get a = Except.error ("could not find attribute " ++ a) ↔
        a ∉ sampleInstance.contents.map Prod.fst) ∧
      sampleInstance.Get "username" = Except.ok (Value.str "jenny")) :=
  ⟨rfl, c10_get_unknown_attribute sampleInstance "username" (Value.str "jenny") rfl⟩

/-- `sampleInstance` after one successful persistence. -/
def samplePersisted : Instance :=
  { sampleInstance with persisted := true, persistedContents := sampleInstance.contents }

/-! ### C2 -/

/-- C2: once an instance has gone through a successful persistence, any
sequence of `With` mutations afterwards keeps `persisted = true`, and the
next persistence pass issues for it exactly one UPDATE — never an INSERT —
whose SET clause is the current (post-mutation) contents and whose WHERE
clause is the snapshot written by the previous successful persistence (the
pre-mutation values). -/
theorem c2_update_keyed_by_snapshot (f : PersistFn) (g : PersistFn) (i i₁ : Instance)
    (muts : List (String × Value)) (hp : i.persist f = Except.ok i₁)
    (hb : i.buildOnly = false) :
    (muts.foldl (fun j kv => j.With kv.1 kv.2) i₁).persisted = true ∧
    (muts.foldl (fun j kv => j.With kv.1 kv.2) i₁).persistStmt =
      Stmt.update i.tableName
        (muts.foldl (fun j kv => j.With kv.1 kv.2) i₁).contents i.contents ∧
    (∀ t p, (muts.foldl (fun j kv => j.With kv.1 kv.2) i₁).persistStmt ≠ Stmt.insert t p) ∧
    (saveList g [muts.foldl (fun j kv => j.With kv.1 kv.2) i₁]).issued =
      [Stmt.update i.tableName
        (muts.foldl (fun j kv => j.With kv.1 kv.2) i₁).contents i.contents] := by
  have h1 : i₁ = { i with persisted := true, persistedContents := i.contents } := by
    unfold Instance.persist at hp
    cases h : f i.persistStmt with
    | ok u => rw [h] at hp; cases hp; rfl
    | error e => rw [h] at hp; cases hp
  obtain ⟨hpc, hpd, hnm, htn, hbo⟩ := foldl_With_frame muts i₁
  have hper : (muts.foldl (fun j kv => j.With kv.1 kv.2) i₁).persisted = true := by
    rw [hpd, h1]
  have hstmt : (muts.foldl (fun j kv => j.With kv.1 kv.2) i₁).persistStmt =
      Stmt.update i.tableName
        (muts.foldl (fun j kv => j.With kv.1 kv.2) i₁).contents i.contents := by
    rw [Instance.persistStmt, hper]
    simp only [if_true, Instance.updateStmt]
    rw [htn, hpc, h1]
  refine ⟨hper, hstmt, ?_, ?_⟩
  · intro t p
    rw [hstmt]
    intro h
    cases h
  · have hbo2 : (muts.foldl (fun j kv => j.With kv.1 kv.2) i₁).buildOnly = false := by
      rw [hbo, h1, hb]
    rw [saveList, if_neg (by simp [hbo2])]
    cases hg : g (muts.foldl (fun j kv => j.With kv.1 kv.2) i₁).persistStmt <;>
      simp [saveList, hstmt]

theorem c2_witness :
    sampleInstance.persist (fun _ => Except.ok ()) = Except.ok samplePersisted ∧
    sampleInstance.buildOnly = false ∧
    (let i₂ := ([("username", Value.str "carl")] :
        List (String × Value)).foldl (fun j kv => j.With kv.1 kv.2) samplePersisted
    i₂.persisted = true ∧
    i₂.persistStmt = Stmt.update sampleInstance.tableName i₂.contents sampleInstance.contents ∧
    (∀ t p, i₂.persistStmt ≠ Stmt.insert t p) ∧
    (saveList (fun _ => Except.ok ()) [i₂]).issued =
      [Stmt.update sampleInstance.tableName i₂.contents sampleInstance.contents]) :=
  ⟨rfl, rfl,
    c2_update_keyed_by_snapshot (fun _ => Except.ok ()) (fun _ => Except.ok ())
      sampleInstance samplePersisted [("username", Value.str "carl")] rfl rfl⟩

/-! ### C4 -/

/-- The prototype from the repository's own test
`TestLoadPrototypeCustomNameAndCreateInstance`: table `users`, alias
(`Name` field) `jenny`. -/
def jennyProto : Prototype :=
  { tableName := "users", outline := "", protoName := some "jenny", buildOnly := false }

def emptyBuilder : Builder := { prototypes := [], instances := [] }

/-- C4 (code bug): registering the repository test's prototype
(`TableName = "users"`, `Name = "jenny"`) stores it under `"users"` only, so
a subsequent `Build("jenny")` — which the repository's own test
`TestLoadPrototypeCustomNameAndCreateInstance` and README require to succeed
— panics `could not build instance of jenny: no prototype found`, while the
spec-modelled `register` (keyed by alias when present) does expose the
blueprint under `"jenny"`. -/
theorem c4_alias_ignored :
    (emptyBuilder.LoadPrototype jennyProto).buildLookup "jenny" =
      Except.error ("could not build instance of jenny: no prototype found") ∧
    (emptyBuilder.LoadPrototype jennyProto).buildLookup "users" = Except.ok jennyProto ∧
    (registerSpec [] jennyProto).lookup "jenny" = some jennyProto :=
  ⟨rfl, rfl, rfl⟩

end Factory

namespace Factory

/-! ### C5 -/

/-- C5: `Save` iterates the registry in registration order; every earlier
instance is either skipped (build-only) or persisted with `persisted = true`
and `persistedContents` set to the contents just written; at the first
execute-channel failure iteration stops with the panic
`error saving <name>: could not persist: <err>` naming the failing instance,
whose flags and snapshot — like everything after it — are left unchanged. -/
theorem c5_save_first_failure (f : PersistFn) (pre post : List Instance) (i : Instance)
    (hpre : ∀ j ∈ pre, j.buildOnly = true ∨ f j.persistStmt = Except.ok ())
    (hi : i.buildOnly = false) (msg : String) (hf : f i.persistStmt = Except.error msg) :
    saveList f (pre ++ i :: post) =
      ⟨pre.map (fun j => if j.buildOnly then j
            else { j with persisted := true, persistedContents := j.contents }) ++ i :: post,
        (pre.filter (fun j => !j.buildOnly)).map Instance.persistStmt ++ [i.persistStmt],
        some ("error saving " ++ i.name ++ ": could not persist: " ++ msg)⟩ := by
  induction pre with
  | nil =>
    simp [saveList, hi, hf]
  | cons j pre' ih =>
    have hrest := ih (fun j2 hj2 => hpre j2 (List.mem_cons_of_mem j hj2))
    cases hj : j.buildOnly with
    | true =>
      simp [saveList, hj, hrest]
    | false =>
      rcases hpre j (List.mem_cons_self j pre') with h | h
      · rw [hj] at h; cases h
      · simp [saveList, hj, h, hrest]

/-- A build-only instance (as a transient-only blueprint or `Find` produces). -/
def wA : Instance :=
  { name := "a", persistedContents := [], contents := [("id", Value.str "1")],
    tableName := "users", persisted := false, buildOnly := true }

def wB : Instance :=
  { name := "b", persistedContents := [], contents := [("id", Value.str "2")],
    tableName := "users", persisted := false, buildOnly := false }

def wC : Instance :=
  { name := "c", persistedContents := [], contents := [("id", Value.str "3")],
    tableName := "bad", persisted := false, buildOnly := false }

def wD : Instance :=
  { name := "d", persistedContents := [], contents := [("id", Value.str "4")],
    tableName := "users", persisted := false, buildOnly := false }

/-- A concrete execute channel that rejects writes to table `bad`. -/
def wfn : PersistFn := fun s =>
  match s with
  | Stmt.insert "bad" _ => Except.error "boom"
  | _ => Except.ok ()

theorem c5_witness :
    (∀ j ∈ [wA, wB], j.buildOnly = true ∨ wfn j.persistStmt = Except.ok ()) ∧
    wC.buildOnly = false ∧ wfn wC.persistStmt = Except.error "boom" ∧
    saveList wfn ([wA, wB] ++ wC :: [wD]) =
      ⟨[wA, wB].map (fun j => if j.buildOnly then j
            else { j with persisted := true, persistedContents := j.contents }) ++ wC :: [wD],
        ([wA, wB].filter (fun j => !j.buildOnly)).map Instance.persistStmt ++ [wC.persistStmt],
        some ("error saving " ++ wC.name ++ ": could not persist: " ++ "boom")⟩ :=
  have hpre : ∀ j ∈ [wA, wB], j.buildOnly = true ∨ wfn j.persistStmt = Except.ok () := by
    intro j hj
    simp only [List.mem_cons, List.not_mem_nil, or_false] at hj
    rcases hj with rfl | rfl
    · left; rfl
    · right; rfl
  ⟨hpre, rfl, rfl, c5_save_first_failure wfn [wA, wB] [wD] wC hpre rfl "boom" rfl⟩

/-! ### C6 -/

/-- C6: the statements `Save` issues over a registry are exactly those it
issues over the registry with all build-only (transient) instances removed —
a transient instance never contributes a statement, whatever its `persisted`
flag; moreover every instance produced by `Find` is marked build-only, and an
instance built from a prototype inherits the prototype's build-only flag. -/
theorem c6_transient_never_issued (f : PersistFn) (is : List Instance) (b : Builder)
    (qf : QueryFn) (table : String) (filter : Contents) (nm : Option String) :
    (saveList f is).issued = (saveList f (is.filter (fun i => !i.buildOnly))).issued ∧
    (∀ b2 out, b.Find qf table filter nm = Except.ok (b2, out) →
      ∀ j ∈ out, j.buildOnly = true) ∧
    (∀ p pn inN c, (buildInstance p pn inN c).buildOnly = p.buildOnly) := by
  refine ⟨?_, ?_, fun p pn inN c => rfl⟩
  · induction is with
    | nil => rfl
    | cons i rest ih =>
      cases hi : i.buildOnly with
      | true => simp [saveList, hi, ih]
      | false =>
        cases hfi : f i.persistStmt with
        | ok u => simp [saveList, hi, hfi, ih]
        | error e => simp [saveList, hi, hfi]
  · intro b2 out h j hj
    unfold Builder.Find at h
    cases hq : qf (Stmt.select table filter) with
    | error e => rw [hq] at h; cases h
    | ok rows =>
      rw [hq] at h
      simp only [Except.ok.injEq, Prod.mk.injEq] at h
      obtain ⟨h1, h2⟩ := h
      rw [← h2] at hj
      obtain ⟨c, hc, rfl⟩ := List.mem_map.1 hj
      rfl

/-- A concrete query channel returning one row. -/
def wqf : QueryFn := fun _ => Except.ok [[("id", Value.str "123")]]

theorem c6_witness :
    (saveList wfn [wA, wB]).issued =
      (saveList wfn ([wA, wB].filter (fun i => !i.buildOnly))).issued ∧
    (∀ j ∈ [rowInstance "alreadyExistingUser" "users" [("id", Value.str "123")]],
      j.buildOnly = true) :=
  ⟨(c6_transient_never_issued wfn [wA, wB] emptyBuilder wqf "users"
      [("username", Value.str "jenny1")] (some "alreadyExistingUser")).1,
    fun j hj =>
      (c6_transient_never_issued wfn [wA, wB] emptyBuilder wqf "users"
          [("username", Value.str "jenny1")] (some "alreadyExistingUser")).2.1
        { prototypes := [],
          instances := [rowInstance "alreadyExistingUser" "users" [("id", Value.str "123")]] }
        [rowInstance "alreadyExistingUser" "users" [("id", Value.str "123")]] rfl j hj⟩

/-! ### C9 -/

/-- C9: when the query channel answers the built SELECT with a list of rows,
`Find` succeeds; it returns exactly one instance per row, in the channel's
order (position `k` of the result holds row `k` as its contents), each with
`persisted = true`, `buildOnly = true`, `contents = persistedContents`, the
supplied registry name (default: the table name) and the queried table; and
the registry becomes the old registry with these instances appended. -/
theorem c9_find (b : Builder) (qf : QueryFn) (table : String) (filter : Contents)
    (nm : Option String) (rows : List Contents)
    (hq : qf (Stmt.select table filter) = Except.ok rows) :
    ∃ b2 out, b.Find qf table filter nm = Except.ok (b2, out) ∧
      out.length = rows.length ∧
      (∀ k : Nat, (out[k]?).map Instance.contents = rows[k]?) ∧
      (∀ j ∈ out, j.persisted = true ∧ j.buildOnly = true ∧
        j.contents = j.persistedContents ∧ j.name = nm.getD table ∧ j.tableName = table) ∧
      b2.instances = b.instances ++ out := by
  refine ⟨{ b with instances := b.instances ++ rows.map (rowInstance (nm.getD table) table) },
    rows.map (rowInstance (nm.getD table) table), ?_, by simp, ?_, ?_, rfl⟩
  · unfold Builder.Find
    rw [hq]
  · intro k
    rw [List.getElem?_map]
    cases rows[k]? with
    | none => rfl
    | some c => rfl
  · intro j hj
    obtain ⟨c, hc, rfl⟩ := List.mem_map.1 hj
    exact ⟨rfl, rfl, rfl, rfl, rfl⟩

theorem c9_witness :
    wqf (Stmt.select "users" [("username", Value.str "jenny1")]) =
      Except.ok [[("id", Value.str "123")]] ∧
    (∃ b2 out, emptyBuilder.Find wqf "users" [("username", Value.str "jenny1")]
        (some "alreadyExistingUser") = Except.ok (b2, out) ∧
      out.length = ([[("id", Value.str "123")]] : List Contents).length ∧
      (∀ k : Nat, (out[k]?).map Instance.contents =
        ([[("id", Value.str "123")]] : List Contents)[k]?) ∧
      (∀ j ∈ out, j.persisted = true ∧ j.buildOnly = true ∧
        j.contents = j.persistedContents ∧
        j.name = (some "alreadyExistingUser").getD "users" ∧ j.tableName = "users") ∧
      b2.instances = emptyBuilder.instances ++ out) :=
  ⟨rfl, c9_find emptyBuilder wqf "users" [("username", Value.str "jenny1")]
      (some "alreadyExistingUser") [[("id", Value.str "123")]] rfl⟩

end Factory

namespace Factory

/-! ### C8 -/

/-- The single regex match `\x7b\x7bx\x7d\x7d` and the outline containing it
twice, used in the duplicate-occurrence analysis. -/
def mx : String := "\x7b\x7bx\x7d\x7d"

def dupOutline : String := "\x7b\x7bx\x7d\x7d \x7b\x7bx\x7d\x7d"

/-- C8 counterexample: `a_b` consists of characters of the regex class
`[a-zA-z0-9]` (the `A-z` range contains the underscore), so
`\x7b\x7ba_b\x7d\x7d` IS found as a marker, and expansion with no generator
registered under `a_b` fails with the unknown-generator panic — the claim
says text of that shape is not a marker and triggers no failure. -/
theorem c8_counterexample :
    findMatches "\x7b\x7ba_b\x7d\x7d" = [("\x7b\x7ba_b\x7d\x7d", "a_b")] ∧
    expandVars [] "\x7b\x7ba_b\x7d\x7d" =
      Except.error ("no setter function called a_b found") ∧
    isClassChar '_' = true :=
  ⟨rfl, rfl, rfl⟩

theorem expandLoop_error_iff (funcs : List (String × Generator))
    (ms : List (String × String)) :
    ∀ s cnt, (∃ e, expandLoop funcs ms s cnt = Except.error e) ↔
      ∃ m ∈ ms, funcs.lookup m.2 = none := by
  induction ms with
  | nil => intro s cnt; simp [expandLoop]
  | cons m rest ih =>
    intro s cnt
    obtain ⟨w, nm⟩ := m
    cases hl : funcs.lookup nm with
    | none =>
      constructor
      · intro _
        exact ⟨(w, nm), List.mem_cons_self _ _, hl⟩
      · intro _
        refine ⟨"no setter function called " ++ nm ++ " found", ?_⟩
        simp only [expandLoop, hl]
    | some g =>
      rw [show expandLoop funcs ((w, nm) :: rest) s cnt =
          expandLoop funcs rest (replaceAll s w (g (getCount cnt nm))) (bumpCount cnt nm) from
        by simp only [expandLoop, hl]]
      rw [ih]
      constructor
      · rintro ⟨m, hm, hmn⟩
        exact ⟨m, List.mem_cons_of_mem _ hm, hmn⟩
      · rintro ⟨m, hm, hmn⟩
        rcases List.mem_cons.1 hm with rfl | hm2
        · exact absurd hmn (by simp [hl])
        · exact ⟨m, hm2, hmn⟩

/-- C8 (amended): the markers are the substrings of the form two opening
braces + one or more characters of the regex class `[a-zA-z0-9]` + two
closing braces, where — because the class's second range is `A`-`z` — the
class is exactly ASCII 48-57 and 65-122, so it also admits bracket,
backslash, caret, underscore and backquote.  Expansion fails (with the
unknown-generator panic) if and only if some such marker found in the
outline names a generator that is not registered. -/
theorem c8_amended_markers (funcs : List (String × Generator)) (outline : String) (c : Char) :
    ((∃ e, expandVars funcs outline = Except.error e) ↔
      ∃ m ∈ findMatches outline, funcs.lookup m.2 = none) ∧
    (isClassChar c = true ↔
      (48 ≤ c.toNat ∧ c.toNat ≤ 57) ∨ (65 ≤ c.toNat ∧ c.toNat ≤ 122)) := by
  constructor
  · exact expandLoop_error_iff funcs (findMatches outline) outline []
  · simp only [isClassChar, Bool.or_eq_true, Bool.and_eq_true, decide_eq_true_eq]
    omega

theorem c8_witness :
    ((∃ e, expandVars [] "\x7b\x7ba2\x7d\x7d" = Except.error e) ↔
      ∃ m ∈ findMatches "\x7b\x7ba2\x7d\x7d", List.lookup m.2 ([] : List (String × Generator)) = none) ∧
    (isClassChar '_' = true ↔
      (48 ≤ '_'.toNat ∧ '_'.toNat ≤ 57) ∨ (65 ≤ '_'.toNat ∧ '_'.toNat ≤ 122)) :=
  c8_amended_markers [] "\x7b\x7ba2\x7d\x7d" '_'

/-! ### C1 -/

/-- A generator whose successive invocations return different values. -/
def cgen : Generator := fun n => if n = 0 then "a" else "b"

/-- C1 counterexample: with a generator returning `a` then `b` on successive
invocations, expanding an outline containing the marker `\x7b\x7bx\x7d\x7d`
twice yields `a a` — both occurrences receive the first invocation's value
(the generator is still invoked twice, as the counter records) — and not the
`a b` that per-occurrence fresh replacement would give. -/
theorem c1_counterexample :
    cgen 0 ≠ cgen 1 ∧
    expandVars [("x", cgen)] dupOutline = Except.ok ("a a", [("x", 2)]) ∧
    ("a a" : String) ≠ cgen 0 ++ " " ++ cgen 1 :=
  ⟨by decide, rfl, by decide⟩

theorem raGo_skip (old' new s1 t : List Char) (h : ∀ c ∈ s1, c ≠ '{') :
    raGo ('{' :: old') new (s1 ++ t) 0 = s1 ++ raGo ('{' :: old') new t 0 := by
  induction s1 with
  | nil => rfl
  | cons c s1' ih =>
    have hc : c ≠ '{' := h c (List.mem_cons_self c s1')
    have hp : ('{' :: old').isPrefixOf (c :: (s1' ++ t)) = false := by
      simp [List.isPrefixOf, beq_eq_false_iff_ne.2 (Ne.symm hc)]
    simp [raGo, hp, ih (fun c2 hc2 => h c2 (List.mem_cons_of_mem c hc2))]

/-! ### C7 witness -/

theorem c7_witness :
    instanceLoop (Builder.mk [] [wB, wC, wD]).instances "c" 0 =
      ((Builder.mk [] [wB, wC, wD]).instances.filter (fun inst => inst.name == "c"))[0]? ∧
    ((Builder.mk [] [wB, wC, wD]).InstanceByName "c" 0 =
        Except.error ("no instance " ++ "c" ++ " found") ↔
      ((Builder.mk [] [wB, wC, wD]).instances.filter (fun inst => inst.name == "c")).length ≤ 0) ∧
    (∀ inst, (Builder.mk [] [wB, wC, wD]).InstanceByName "c" 0 = Except.ok inst ↔
      ((Builder.mk [] [wB, wC, wD]).instances.filter (fun inst2 => inst2.name == "c"))[0]? =
        some inst) :=
  c7_instance_lookup (Builder.mk [] [wB, wC, wD]) "c" 0

end Factory

namespace Factory

/-- The whole text of a marker with run `r`: two opening braces, the run, two
closing braces (the string `varReplacementRegex` matches). -/
def mkChars (r : List Char) : List Char := '{' :: '{' :: (r ++ ['}', '}'])

/-- A decomposed outline: literal text interleaved with markers.  Every
outline whose opening braces all belong to markers renders from such a
decomposition, and conversely. -/
inductive Piece where
  | lit (t : List Char) : Piece
  | mark (r : List Char) : Piece
deriving DecidableEq

/-- The outline text of a decomposition. -/
def renderP : List Piece → List Char
  | [] => []
  | Piece.lit t :: ps => t ++ renderP ps
  | Piece.mark r :: ps => '{' :: '{' :: (r ++ '}' :: '}' :: renderP ps)

/-- Well-formedness: literal segments contain no opening brace (their braces,
if any, are closing ones outside marker syntax), marker runs are nonempty
runs of `varReplacementRegex` class characters. -/
def PieceOk : Piece → Prop
  | Piece.lit t => ∀ c ∈ t, c ≠ '{'
  | Piece.mark r => r ≠ [] ∧ ∀ c ∈ r, isClassChar c = true

/-- The (whole match, submatch) pairs of the markers of a decomposition, in
order — one entry per textual occurrence. -/
def marksOf : List Piece → List (String × String)
  | [] => []
  | Piece.lit _ :: ps => marksOf ps
  | Piece.mark r :: ps => (String.mk (mkChars r), String.mk r) :: marksOf ps

/-- Replace every marker with run `x` by the literal text `v` (the effect of
one `strings.ReplaceAll` pass on a decomposition). -/
def replaceMarkP (x v : List Char) : List Piece → List Piece
  | [] => []
  | Piece.lit t :: ps => Piece.lit t :: replaceMarkP x v ps
  | Piece.mark r :: ps =>
      (if r = x then Piece.lit v else Piece.mark r) :: replaceMarkP x v ps

theorem classChar_ne_lbrace (c : Char) (h : isClassChar c = true) : c ≠ '{' := by
  intro hc
  rw [hc] at h
  exact absurd h (by decide)

theorem classChar_ne_rbrace (c : Char) (h : isClassChar c = true) : c ≠ '}' := by
  intro hc
  rw [hc] at h
  exact absurd h (by decide)

end Factory

namespace Factory

theorem raGo_consume (old new : List Char) (a : List Char) :
    ∀ rest, raGo old new (a ++ rest) a.length = raGo old new rest 0 := by
  induction a with
  | nil => intro rest; rfl
  | cons c a' ih => intro rest; exact ih rest

theorem isPrefixOf_append_self (l : List Char) : ∀ t, l.isPrefixOf (l ++ t) = true := by
  induction l with
  | nil => intro t; simp [List.isPrefixOf]
  | cons c l' ih => intro t; simp [List.isPrefixOf, ih]

/-- Two distinct class-character runs, each closed by two braces, are never
prefix-related: the first difference is a differing run character or a run
character against a closing brace. -/
theorem run_not_prefix (x : List Char) :
    ∀ y rest, x ≠ y → (∀ c ∈ x, isClassChar c = true) → (∀ c ∈ y, isClassChar c = true) →
      (x ++ ['}', '}']).isPrefixOf (y ++ '}' :: '}' :: rest) = false := by
  induction x with
  | nil =>
    intro y rest hxy hx hy
    cases y with
    | nil => exact absurd rfl hxy
    | cons b y' =>
      have hb : b ≠ '}' := classChar_ne_rbrace b (hy b (List.mem_cons_self b y'))
      simp [List.isPrefixOf, beq_eq_false_iff_ne.2 (Ne.symm hb)]
  | cons a x' ih =>
    intro y rest hxy hx hy
    cases y with
    | nil =>
      have ha : a ≠ '}' := classChar_ne_rbrace a (hx a (List.mem_cons_self a x'))
      simp [List.isPrefixOf, beq_eq_false_iff_ne.2 ha]
    | cons b y' =>
      rcases eq_or_ne a b with rfl | hab
      · have hxy' : x' ≠ y' := by
          intro h; exact hxy (by rw [h])
        simp only [List.cons_append, List.isPrefixOf, Bool.and_eq_false_iff]
        right
        exact ih y' rest hxy' (fun c hc => hx c (List.mem_cons_of_mem a hc))
          (fun c hc => hy c (List.mem_cons_of_mem _ hc))
      · simp [List.isPrefixOf, beq_eq_false_iff_ne.2 hab]

/-- Scanning for marker `x` passes verbatim over a marker with a different
run `y`. -/
theorem raGo_marker_ne (x y v rest : List Char) (hxy : x ≠ y)
    (hx : ∀ c ∈ x, isClassChar c = true)
    (hy : y ≠ []) (hyc : ∀ c ∈ y, isClassChar c = true) :
    raGo (mkChars x) v ('{' :: '{' :: (y ++ '}' :: '}' :: rest)) 0 =
      '{' :: '{' :: (y ++ '}' :: '}' :: raGo (mkChars x) v rest 0) := by
  have h1 : (mkChars x).isPrefixOf ('{' :: '{' :: (y ++ '}' :: '}' :: rest)) = false := by
    simp only [mkChars, List.isPrefixOf, beq_self_eq_true, Bool.true_and]
    exact run_not_prefix x y rest hxy hx hyc
  have h2 : (mkChars x).isPrefixOf ('{' :: (y ++ '}' :: '}' :: rest)) = false := by
    cases y with
    | nil => exact absurd rfl hy
    | cons b y' =>
      have hb : b ≠ '{' := classChar_ne_lbrace b (hyc b (List.mem_cons_self b y'))
      simp [mkChars, List.isPrefixOf, beq_eq_false_iff_ne.2 (Ne.symm hb)]
  have h3 : ∀ c ∈ y ++ ['}', '}'], c ≠ '{' := by
    intro c hc
    rcases List.mem_append.1 hc with hc | hc
    · exact classChar_ne_lbrace c (hyc c hc)
    · rcases List.mem_cons.1 hc with rfl | hc
      · decide
      · rcases List.mem_cons.1 hc with rfl | hc
        · decide
        · cases hc
  have key := raGo_skip ('{' :: (x ++ ['}', '}'])) v (y ++ ['}', '}']) rest h3
  rw [raGo, if_neg (by simp [h1]), raGo, if_neg (by simp [h2])]
  have hshape : y ++ '}' :: '}' :: rest = (y ++ ['}', '}']) ++ rest := by
    simp
  have hshape2 : y ++ '}' :: '}' :: raGo (mkChars x) v rest 0 =
      (y ++ ['}', '}']) ++ raGo (mkChars x) v rest 0 := by
    simp
  have hmk : mkChars x = '{' :: '{' :: (x ++ ['}', '}']) := rfl
  rw [hshape, hshape2, hmk]
  exact congrArg (fun l => '{' :: '{' :: l) key

/-- Scanning for marker `x` at a marker with run `x` replaces it and resumes
right after it. -/
theorem raGo_marker_eq (x v rest : List Char) :
    raGo (mkChars x) v ('{' :: '{' :: (x ++ '}' :: '}' :: rest)) 0 =
      v ++ raGo (mkChars x) v rest 0 := by
  have hshape : '{' :: '{' :: (x ++ '}' :: '}' :: rest) = mkChars x ++ rest := by
    simp [mkChars]
  have hpre : (mkChars x).isPrefixOf ('{' :: '{' :: (x ++ '}' :: '}' :: rest)) = true := by
    rw [hshape]
    exact isPrefixOf_append_self (mkChars x) rest
  rw [raGo, if_pos (by simp [hpre])]
  have hlen : ('{' :: (x ++ '}' :: '}' :: rest)) =
      ('{' :: (x ++ ['}', '}'])) ++ rest := by simp
  have hlen2 : (mkChars x).length - 1 = ('{' :: (x ++ ['}', '}'])).length := by
    simp [mkChars]
  rw [hlen, hlen2, raGo_consume]

end Factory

namespace Factory

/-- One `strings.ReplaceAll` pass over a rendered decomposition replaces
every `x`-marker occurrence — all at once — by the replacement text, and
changes nothing else. -/
theorem raGo_renderP (x v : List Char) (hx : ∀ c ∈ x, isClassChar c = true) :
    ∀ ps : List Piece, (∀ p ∈ ps, PieceOk p) →
      raGo (mkChars x) v (renderP ps) 0 = renderP (replaceMarkP x v ps) := by
  intro ps
  induction ps with
  | nil => intro _; rfl
  | cons p ps' ih =>
    intro hok
    have hok' : ∀ q ∈ ps', PieceOk q := fun q hq => hok q (List.mem_cons_of_mem p hq)
    cases p with
    | lit t =>
      have ht : ∀ c ∈ t, c ≠ '{' := hok (Piece.lit t) (List.mem_cons_self _ _)
      have hmk : mkChars x = '{' :: ('{' :: (x ++ ['}', '}'])) := rfl
      calc raGo (mkChars x) v (renderP (Piece.lit t :: ps')) 0
          = raGo (mkChars x) v (t ++ renderP ps') 0 := rfl
        _ = t ++ raGo (mkChars x) v (renderP ps') 0 := by
            rw [hmk]; exact raGo_skip _ v t (renderP ps') ht
        _ = t ++ renderP (replaceMarkP x v ps') := by rw [ih hok']
        _ = renderP (replaceMarkP x v (Piece.lit t :: ps')) := rfl
    | mark r =>
      obtain ⟨hr, hrc⟩ : r ≠ [] ∧ ∀ c ∈ r, isClassChar c = true :=
        hok (Piece.mark r) (List.mem_cons_self _ _)
      rcases eq_or_ne r x with rfl | hne
      · calc raGo (mkChars r) v (renderP (Piece.mark r :: ps')) 0
            = raGo (mkChars r) v ('{' :: '{' :: (r ++ '}' :: '}' :: renderP ps')) 0 := rfl
          _ = v ++ raGo (mkChars r) v (renderP ps') 0 := raGo_marker_eq r v (renderP ps')
          _ = v ++ renderP (replaceMarkP r v ps') := by rw [ih hok']
          _ = renderP (replaceMarkP r v (Piece.mark r :: ps')) := by
              simp [replaceMarkP, renderP]
      · calc raGo (mkChars x) v (renderP (Piece.mark r :: ps')) 0
            = raGo (mkChars x) v ('{' :: '{' :: (r ++ '}' :: '}' :: renderP ps')) 0 := rfl
          _ = '{' :: '{' :: (r ++ '}' :: '}' :: raGo (mkChars x) v (renderP ps') 0) :=
              raGo_marker_ne x r v (renderP ps') (Ne.symm hne) hx hr hrc
          _ = '{' :: '{' :: (r ++ '}' :: '}' :: renderP (replaceMarkP x v ps')) := by
              rw [ih hok']
          _ = renderP (replaceMarkP x v (Piece.mark r :: ps')) := by
              simp [replaceMarkP, renderP, hne]

theorem replaceMarkP_eq_self (x v : List Char) :
    ∀ ps : List Piece, Piece.mark x ∉ ps → replaceMarkP x v ps = ps := by
  intro ps
  induction ps with
  | nil => intro _; rfl
  | cons p ps' ih =>
    intro hno
    have hno' : Piece.mark x ∉ ps' := fun h => hno (List.mem_cons_of_mem p h)
    have hnp : p ≠ Piece.mark x := fun h => hno (h ▸ List.mem_cons_self p ps')
    cases p with
    | lit t => simp [replaceMarkP, ih hno']
    | mark r =>
      have hrx : r ≠ x := fun h => hnp (by rw [h])
      simp [replaceMarkP, hrx, ih hno']

end Factory

namespace Factory

theorem fmGo_skip_one (c : Char) (tl : List Char) (k : Nat) :
    fmGo (c :: tl) (k + 1) = fmGo tl k := by
  rw [fmGo.eq_def]
  split
  · simp_all
  · rename_i head2 tl2 k2 heq1 heq2
    injection heq1 with h1 h2
    injection heq2 with h3
    subst h2
    subst h3
    rfl
  · simp_all
  · simp_all

theorem fmGo_consume (a : List Char) :
    ∀ rest, fmGo (a ++ rest) a.length = fmGo rest 0 := by
  induction a with
  | nil => intro rest; rfl
  | cons c a' ih =>
    intro rest
    rw [List.cons_append, List.length_cons, fmGo_skip_one]
    exact ih rest

theorem fmGo_cons_ne (c : Char) (tl : List Char) (hc : c ≠ '{') :
    fmGo (c :: tl) 0 = fmGo tl 0 := by
  cases tl with
  | nil => simp [fmGo]
  | cons c2 tl2 =>
    rw [fmGo.eq_def]
    simp [hc]

end Factory

namespace Factory

theorem takeWhile_append_all (p : Char → Bool) (x : List Char)
    (h : ∀ c ∈ x, p c = true) :
    ∀ l, (x ++ l).takeWhile p = x ++ l.takeWhile p := by
  induction x with
  | nil => intro l; rfl
  | cons c x' ih =>
    intro l
    have hc := h c (List.mem_cons_self c x')
    simp [List.takeWhile, hc, ih (fun d hd => h d (List.mem_cons_of_mem c hd))]

theorem dropWhile_append_all (p : Char → Bool) (x : List Char)
    (h : ∀ c ∈ x, p c = true) :
    ∀ l, (x ++ l).dropWhile p = l.dropWhile p := by
  induction x with
  | nil => intro l; rfl
  | cons c x' ih =>
    intro l
    have hc := h c (List.mem_cons_self c x')
    simp [List.dropWhile, hc, ih (fun d hd => h d (List.mem_cons_of_mem c hd))]

theorem fmGo_marker (x tail : List Char) (hx : x ≠ [])
    (hxc : ∀ c ∈ x, isClassChar c = true) :
    fmGo ('{' :: '{' :: (x ++ '}' :: '}' :: tail)) 0 = (mkChars x, x) :: fmGo tail 0 := by
  have htake : List.takeWhile isClassChar (x ++ '}' :: '}' :: tail) = x := by
    rw [takeWhile_append_all isClassChar x hxc]
    simp [List.takeWhile, show isClassChar (Char.ofNat 125) = false from by decide]
  have hdrop : List.dropWhile isClassChar (x ++ '}' :: '}' :: tail) = '}' :: '}' :: tail := by
    rw [dropWhile_append_all isClassChar x hxc]
    simp [List.dropWhile, show isClassChar (Char.ofNat 125) = false from by decide]
  cases x with
  | nil => exact absurd rfl hx
  | cons c run =>
    rw [fmGo.eq_def]
    simp only [htake, hdrop]
    have hconsume : fmGo ('{' :: ((c :: run) ++ '}' :: '}' :: tail)) ((c :: run).length + 3) =
        fmGo tail 0 := by
      have hshape : '{' :: ((c :: run) ++ '}' :: '}' :: tail) =
          ('{' :: ((c :: run) ++ ['}', '}'])) ++ tail := by simp
      have hlen : ('{' :: ((c :: run) ++ ['}', '}'])).length = (c :: run).length + 3 := by
        simp
      rw [hshape, ← hlen, fmGo_consume]
    rw [hconsume]
    rfl

end Factory

namespace Factory

/-- Character-level marker list of a decomposition. -/
def marksC : List Piece → List (List Char × List Char)
  | [] => []
  | Piece.lit _ :: ps => marksC ps
  | Piece.mark r :: ps => (mkChars r, r) :: marksC ps

theorem fmGo_lit_skip (t : List Char) (ht : ∀ c ∈ t, c ≠ '{') :
    ∀ rest, fmGo (t ++ rest) 0 = fmGo rest 0 := by
  induction t with
  | nil => intro rest; rfl
  | cons c t' ih =>
    intro rest
    rw [List.cons_append, fmGo_cons_ne c _ (ht c (List.mem_cons_self c t'))]
    exact ih (fun d hd => ht d (List.mem_cons_of_mem c hd)) rest

theorem fmGo_renderP : ∀ ps : List Piece, (∀ p ∈ ps, PieceOk p) →
    fmGo (renderP ps) 0 = marksC ps := by
  intro ps
  induction ps with
  | nil => intro _; rfl
  | cons p ps' ih =>
    intro hok
    have hok' : ∀ q ∈ ps', PieceOk q := fun q hq => hok q (List.mem_cons_of_mem p hq)
    cases p with
    | lit t =>
      have ht : ∀ c ∈ t, c ≠ '{' := hok (Piece.lit t) (List.mem_cons_self _ _)
      show fmGo (t ++ renderP ps') 0 = marksC ps'
      rw [fmGo_lit_skip t ht, ih hok']
    | mark r =>
      obtain ⟨hr, hrc⟩ : r ≠ [] ∧ ∀ c ∈ r, isClassChar c = true :=
        hok (Piece.mark r) (List.mem_cons_self _ _)
      show fmGo ('{' :: '{' :: (r ++ '}' :: '}' :: renderP ps')) 0 = (mkChars r, r) :: marksC ps'
      rw [fmGo_marker r _ hr hrc, ih hok']

theorem marksOf_eq_marksC : ∀ ps : List Piece,
    marksOf ps = (marksC ps).map (fun m => (String.mk m.1, String.mk m.2)) := by
  intro ps
  induction ps with
  | nil => rfl
  | cons p ps' ih =>
    cases p with
    | lit t => simpa [marksOf, marksC] using ih
    | mark r => simp [marksOf, marksC, ih]

theorem findMatches_renderP (ps : List Piece) (hok : ∀ p ∈ ps, PieceOk p) :
    findMatches (String.mk (renderP ps)) = marksOf ps := by
  show (fmGo (renderP ps) 0).map (fun m => (String.mk m.1, String.mk m.2)) = marksOf ps
  rw [fmGo_renderP ps hok, marksOf_eq_marksC]

end Factory

namespace Factory

theorem getCount_bumpCount (a b : String) :
    ∀ cnt : Counters, getCount (bumpCount cnt a) b =
      if b = a then getCount cnt a + 1 else getCount cnt b := by
  intro cnt
  induction cnt with
  | nil =>
    rcases eq_or_ne b a with rfl | hb
    · simp [bumpCount, getCount, List.lookup]
    · simp [bumpCount, getCount, List.lookup, hb, beq_eq_false_iff_ne.2 hb]
  | cons p rest ih =>
    obtain ⟨k, n⟩ := p
    rcases eq_or_ne k a with rfl | hk
    · rcases eq_or_ne b k with rfl | hb
      · simp [bumpCount, getCount, List.lookup]
      · simp [bumpCount, getCount, List.lookup, hb, beq_eq_false_iff_ne.2 hb]
    · rcases eq_or_ne b k with rfl | hb
      · simp [bumpCount, getCount, List.lookup, hk]
      · simp only [bumpCount, getCount, if_neg hk, List.lookup,
          beq_eq_false_iff_ne.2 hb, beq_eq_false_iff_ne.2 (Ne.symm hk)]
        simpa [getCount] using ih

theorem mem_replaceMarkP (x v : List Char) (y : List Char) :
    ∀ ps : List Piece, Piece.mark y ∈ replaceMarkP x v ps → Piece.mark y ∈ ps := by
  intro ps
  induction ps with
  | nil => intro h; exact absurd h (List.not_mem_nil _)
  | cons p ps' ih =>
    intro h
    cases p with
    | lit t =>
      rcases List.mem_cons.1 h with h | h
      · cases h
      · exact List.mem_cons_of_mem _ (ih h)
    | mark r =>
      rcases eq_or_ne r x with rfl | hne
      · simp only [replaceMarkP, if_pos rfl] at h
        rcases List.mem_cons.1 h with h | h
        · cases h
        · exact List.mem_cons_of_mem _ (ih h)
      · simp only [replaceMarkP, if_neg hne] at h
        rcases List.mem_cons.1 h with h | h
        · exact h ▸ List.mem_cons_self _ _
        · exact List.mem_cons_of_mem _ (ih h)

theorem not_mark_mem_replaceMarkP (x v : List Char) :
    ∀ ps : List Piece, Piece.mark x ∉ replaceMarkP x v ps := by
  intro ps
  induction ps with
  | nil => exact List.not_mem_nil _
  | cons p ps' ih =>
    intro h
    cases p with
    | lit t =>
      rcases List.mem_cons.1 h with h | h
      · cases h
      · exact ih h
    | mark r =>
      rcases eq_or_ne r x with rfl | hne
      · simp only [replaceMarkP, if_pos rfl] at h
        rcases List.mem_cons.1 h with h | h
        · cases h
        · exact ih h
      · simp only [replaceMarkP, if_neg hne] at h
        rcases List.mem_cons.1 h with h | h
        · exact hne (by injection h with h2; exact h2.symm ▸ rfl)
        · exact ih h

theorem pieceOk_replaceMarkP (x v : List Char) (hv : ∀ c ∈ v, c ≠ '{') :
    ∀ ps : List Piece, (∀ p ∈ ps, PieceOk p) →
      ∀ p ∈ replaceMarkP x v ps, PieceOk p := by
  intro ps
  induction ps with
  | nil => intro _ p hp; exact absurd hp (List.not_mem_nil _)
  | cons q ps' ih =>
    intro hok p hp
    have hok' : ∀ q2 ∈ ps', PieceOk q2 := fun q2 hq2 => hok q2 (List.mem_cons_of_mem q hq2)
    cases q with
    | lit t =>
      rcases List.mem_cons.1 hp with rfl | hp
      · exact hok (Piece.lit t) (List.mem_cons_self _ _)
      · exact ih hok' p hp
    | mark r =>
      rcases eq_or_ne r x with rfl | hne
      · simp only [replaceMarkP, if_pos rfl] at hp
        rcases List.mem_cons.1 hp with rfl | hp
        · exact hv
        · exact ih hok' p hp
      · simp only [replaceMarkP, if_neg hne] at hp
        rcases List.mem_cons.1 hp with rfl | hp
        · exact hok (Piece.mark r) (List.mem_cons_self _ _)
        · exact ih hok' p hp

end Factory

namespace Factory

/-- Guard on a registered generator: its first invocation's value contains no
opening brace (so the inserted text cannot take part in later marker
matches). -/
def firstValOk (funcs : List (String × Generator)) (nm : String) : Prop :=
  match funcs.lookup nm with
  | some g => ∀ c ∈ (g 0).data, c ≠ '{'
  | none => True

/-- The simultaneous first-value substitution: every marker — however often
its name repeats — becomes its generator's FIRST value. -/
def topSubst (funcs : List (String × Generator)) : Piece → Piece
  | Piece.lit t => Piece.lit t
  | Piece.mark r =>
      match funcs.lookup (String.mk r) with
      | some g => Piece.lit (g 0).data
      | none => Piece.mark r

/-- Substitution state during the expansion loop: markers whose name is still
pending in `names` become their generator's value at the current invocation
count; other markers stay. -/
def substM (funcs : List (String × Generator)) (cnt : Counters) (names : List String) :
    List Piece → List Piece
  | [] => []
  | Piece.lit t :: ps => Piece.lit t :: substM funcs cnt names ps
  | Piece.mark r :: ps =>
      (if String.mk r ∈ names then
        match funcs.lookup (String.mk r) with
        | some g => Piece.lit (g (getCount cnt (String.mk r))).data
        | none => Piece.mark r
       else Piece.mark r) :: substM funcs cnt names ps

theorem substM_nil_names (funcs : List (String × Generator)) (cnt : Counters) :
    ∀ ps : List Piece, substM funcs cnt [] ps = ps := by
  intro ps
  induction ps with
  | nil => rfl
  | cons p ps' ih =>
    cases p with
    | lit t => simp [substM, ih]
    | mark r => simp [substM, ih]

theorem substM_first (funcs : List (String × Generator)) (cnt : Counters)
    (names : List String) (nm : String) (g : Generator)
    (hl : funcs.lookup nm = some g) (hc : getCount cnt nm = 0) :
    ∀ ps : List Piece,
      substM funcs cnt (nm :: names) ps =
        substM funcs (bumpCount cnt nm) names (replaceMarkP nm.data (g 0).data ps) := by
  intro ps
  induction ps with
  | nil => rfl
  | cons p ps' ih =>
    cases p with
    | lit t => simp [substM, replaceMarkP, ih]
    | mark r =>
      rcases eq_or_ne (String.mk r) nm with hr | hr
      · have hrd : r = nm.data := by
          rw [← hr]
        rw [show replaceMarkP nm.data (g 0).data (Piece.mark r :: ps') =
            Piece.lit (g 0).data :: replaceMarkP nm.data (g 0).data ps' from by
          simp [replaceMarkP, hrd]]
        simp only [substM, ih]
        congr 1
        rw [if_pos (by simp [hr]), hr, hl, hc]
      · have hrd : r ≠ nm.data := fun h => hr (by rw [h])
        rw [show replaceMarkP nm.data (g 0).data (Piece.mark r :: ps') =
            Piece.mark r :: replaceMarkP nm.data (g 0).data ps' from by
          simp [replaceMarkP, hrd]]
        simp only [substM, ih]
        congr 1
        rcases em (String.mk r ∈ names) with hm | hm
        · rw [if_pos (List.mem_cons_of_mem nm hm), if_pos hm]
          rw [getCount_bumpCount nm (String.mk r) cnt, if_neg hr]
        · rw [if_neg (by simp [hm, hr]), if_neg hm]

theorem substM_stale (funcs : List (String × Generator)) (cnt : Counters)
    (names : List String) (nm : String) :
    ∀ ps : List Piece, Piece.mark nm.data ∉ ps →
      substM funcs cnt (nm :: names) ps = substM funcs (bumpCount cnt nm) names ps := by
  intro ps
  induction ps with
  | nil => intro _; rfl
  | cons p ps' ih =>
    intro hno
    have hno' : Piece.mark nm.data ∉ ps' := fun h => hno (List.mem_cons_of_mem p h)
    cases p with
    | lit t => simp [substM, ih hno']
    | mark r =>
      have hr : String.mk r ≠ nm := by
        intro h
        exact hno (by rw [show r = nm.data from by rw [← h]]; exact List.mem_cons_self _ _)
      simp only [substM, ih hno']
      congr 1
      rcases em (String.mk r ∈ names) with hm | hm
      · rw [if_pos (List.mem_cons_of_mem nm hm), if_pos hm]
        rw [getCount_bumpCount nm (String.mk r) cnt, if_neg hr]
      · rw [if_neg (by simp [hm, hr]), if_neg hm]

theorem getCount_foldl_bump :
    ∀ (ms : List (String × String)) (cnt : Counters) (nm : String),
      getCount (ms.foldl (fun c m => bumpCount c m.2) cnt) nm =
        getCount cnt nm + (ms.map Prod.snd).count nm := by
  intro ms
  induction ms with
  | nil => intro cnt nm; simp
  | cons m ms' ih =>
    intro cnt nm
    rw [List.foldl_cons, ih]
    rw [getCount_bumpCount m.2 nm cnt]
    rcases eq_or_ne nm m.2 with rfl | hne
    · simp [List.count_cons]
      omega
    · simp [List.count_cons, hne, if_neg hne]

end Factory

namespace Factory

theorem expandLoop_renderP (funcs : List (String × Generator)) :
    ∀ (ms : List (String × String)) (ps : List Piece) (cnt : Counters),
      (∀ p ∈ ps, PieceOk p) →
      (∀ m ∈ ms, ∃ r : List Char, m = (String.mk (mkChars r), String.mk r) ∧
        r ≠ [] ∧ ∀ c ∈ r, isClassChar c = true) →
      (∀ m ∈ ms, (funcs.lookup m.2).isSome = true) →
      (∀ m ∈ ms, firstValOk funcs m.2) →
      (∀ m ∈ ms, getCount cnt m.2 ≠ 0 → Piece.mark m.2.data ∉ ps) →
      expandLoop funcs ms (String.mk (renderP ps)) cnt =
        Except.ok (String.mk (renderP (substM funcs cnt (ms.map Prod.snd) ps)),
          ms.foldl (fun c m => bumpCount c m.2) cnt) := by
  intro ms
  induction ms with
  | nil =>
    intro ps cnt hok _ _ _ _
    simp [expandLoop, substM_nil_names]
  | cons m ms' ih =>
    intro ps cnt hok hform hreg hval hstale
    obtain ⟨r, rfl, hr, hrc⟩ := hform m (List.mem_cons_self m ms')
    obtain ⟨g, hg⟩ := Option.isSome_iff_exists.1 (hreg _ (List.mem_cons_self _ _))
    have hv : ∀ c ∈ (g 0).data, c ≠ '{' := by
      have hv0 := hval _ (List.mem_cons_self _ _)
      unfold firstValOk at hv0
      rw [hg] at hv0
      exact hv0
    have hstep : expandLoop funcs ((String.mk (mkChars r), String.mk r) :: ms')
        (String.mk (renderP ps)) cnt =
      expandLoop funcs ms'
        (replaceAll (String.mk (renderP ps)) (String.mk (mkChars r))
          (g (getCount cnt (String.mk r))))
        (bumpCount cnt (String.mk r)) := by
      simp only [expandLoop, hg]
    rw [hstep]
    have hform' : ∀ m2 ∈ ms', ∃ r2 : List Char,
        m2 = (String.mk (mkChars r2), String.mk r2) ∧ r2 ≠ [] ∧
          ∀ c ∈ r2, isClassChar c = true :=
      fun m2 hm2 => hform m2 (List.mem_cons_of_mem _ hm2)
    have hreg' : ∀ m2 ∈ ms', (funcs.lookup m2.2).isSome = true :=
      fun m2 hm2 => hreg m2 (List.mem_cons_of_mem _ hm2)
    have hval' : ∀ m2 ∈ ms', firstValOk funcs m2.2 :=
      fun m2 hm2 => hval m2 (List.mem_cons_of_mem _ hm2)
    rcases eq_or_ne (getCount cnt (String.mk r)) 0 with h0 | hn
    · -- first processing of this marker name: all its occurrences are replaced
      have hrepl : replaceAll (String.mk (renderP ps)) (String.mk (mkChars r))
          (g (getCount cnt (String.mk r))) =
        String.mk (renderP (replaceMarkP r (g 0).data ps)) := by
        rw [h0]
        show String.mk (raGo (mkChars r) (g 0).data (renderP ps) 0) = _
        rw [raGo_renderP r (g 0).data hrc ps hok]
      rw [hrepl]
      have hok2 : ∀ p ∈ replaceMarkP r (g 0).data ps, PieceOk p :=
        pieceOk_replaceMarkP r (g 0).data hv ps hok
      have hstale2 : ∀ m2 ∈ ms', getCount (bumpCount cnt (String.mk r)) m2.2 ≠ 0 →
          Piece.mark m2.2.data ∉ replaceMarkP r (g 0).data ps := by
        intro m2 hm2 hc2
        rcases eq_or_ne m2.2 (String.mk r) with he | he
        · rw [he]
          exact not_mark_mem_replaceMarkP r (g 0).data ps
        · rw [getCount_bumpCount (String.mk r) m2.2 cnt, if_neg he] at hc2
          intro hmem
          exact hstale m2 (List.mem_cons_of_mem _ hm2) hc2
            (mem_replaceMarkP r (g 0).data m2.2.data ps hmem)
      rw [ih (replaceMarkP r (g 0).data ps) (bumpCount cnt (String.mk r))
        hok2 hform' hreg' hval' hstale2]
      rw [List.map_cons, List.foldl_cons]
      rw [substM_first funcs cnt (ms'.map Prod.snd) (String.mk r) g hg h0]
    · -- the name was processed before: none of its markers remain, no-op pass
      have hnomark : Piece.mark r ∉ ps :=
        hstale _ (List.mem_cons_self _ _) hn
      have hrepl : replaceAll (String.mk (renderP ps)) (String.mk (mkChars r))
          (g (getCount cnt (String.mk r))) = String.mk (renderP ps) := by
        show String.mk (raGo (mkChars r) (g (getCount cnt (String.mk r))).data
          (renderP ps) 0) = _
        rw [raGo_renderP r _ hrc ps hok, replaceMarkP_eq_self r _ ps hnomark]
      rw [hrepl]
      have hstale2 : ∀ m2 ∈ ms', getCount (bumpCount cnt (String.mk r)) m2.2 ≠ 0 →
          Piece.mark m2.2.data ∉ ps := by
        intro m2 hm2 hc2
        rcases eq_or_ne m2.2 (String.mk r) with he | he
        · rw [he]
          exact hnomark
        · rw [getCount_bumpCount (String.mk r) m2.2 cnt, if_neg he] at hc2
          exact hstale m2 (List.mem_cons_of_mem _ hm2) hc2
      rw [ih ps (bumpCount cnt (String.mk r)) hok hform' hreg' hval' hstale2]
      rw [List.map_cons, List.foldl_cons]
      rw [substM_stale funcs cnt (ms'.map Prod.snd) (String.mk r) ps hnomark]

end Factory

namespace Factory

theorem marksOf_mem : ∀ (ps : List Piece) (m : String × String), m ∈ marksOf ps →
    ∃ r : List Char, Piece.mark r ∈ ps ∧ m = (String.mk (mkChars r), String.mk r) := by
  intro ps
  induction ps with
  | nil => intro m hm; exact absurd hm (List.not_mem_nil m)
  | cons p ps' ih =>
    intro m hm
    cases p with
    | lit t =>
      obtain ⟨r, hr1, hr2⟩ := ih m hm
      exact ⟨r, List.mem_cons_of_mem _ hr1, hr2⟩
    | mark r =>
      rcases List.mem_cons.1 hm with rfl | hm2
      · exact ⟨r, List.mem_cons_self _ _, rfl⟩
      · obtain ⟨r2, hr1, hr2⟩ := ih m hm2
        exact ⟨r2, List.mem_cons_of_mem _ hr1, hr2⟩

theorem mark_name_mem_marksOf : ∀ (ps : List Piece) (r : List Char), Piece.mark r ∈ ps →
    String.mk r ∈ (marksOf ps).map Prod.snd := by
  intro ps
  induction ps with
  | nil => intro r hr; exact absurd hr (List.not_mem_nil _)
  | cons p ps' ih =>
    intro r hr
    cases p with
    | lit t =>
      rcases List.mem_cons.1 hr with h | h
      · cases h
      · exact ih r h
    | mark r2 =>
      rcases List.mem_cons.1 hr with h | h
      · injection h with h2
        subst h2
        exact List.mem_cons_self _ _
      · exact List.mem_cons_of_mem _ (ih r h)

theorem substM_top (funcs : List (String × Generator)) (names : List String) :
    ∀ ps : List Piece, (∀ r : List Char, Piece.mark r ∈ ps → String.mk r ∈ names) →
      substM funcs [] names ps = ps.map (topSubst funcs) := by
  intro ps
  induction ps with
  | nil => intro _; rfl
  | cons p ps' ih =>
    intro hnames
    have hnames' : ∀ r : List Char, Piece.mark r ∈ ps' → String.mk r ∈ names :=
      fun r hr => hnames r (List.mem_cons_of_mem p hr)
    cases p with
    | lit t => simp [substM, topSubst, ih hnames']
    | mark r =>
      have hmem : String.mk r ∈ names := hnames r (List.mem_cons_self _ _)
      simp only [substM, if_pos hmem, List.map_cons, ih hnames']
      rfl

/-- C1 (amended): for EVERY blueprint outline that decomposes into literal
segments free of opening braces and markers (in particular every outline
containing the same marker several times), provided each marker's generator
is registered and its first value contains no opening brace, `Build`'s
expansion loop replaces ALL textual occurrences of a marker — however often
it repeats — by the generator's FIRST value (never by fresh per-occurrence
values), while still invoking the generator once per textual occurrence (the
later values are discarded). -/
theorem c1_amended_every_occurrence (funcs : List (String × Generator)) (ps : List Piece)
    (hok : ∀ p ∈ ps, PieceOk p)
    (hreg : ∀ r : List Char, Piece.mark r ∈ ps → (funcs.lookup (String.mk r)).isSome = true)
    (hval : ∀ r : List Char, Piece.mark r ∈ ps → firstValOk funcs (String.mk r)) :
    ∃ cnt : Counters,
      expandVars funcs (String.mk (renderP ps)) =
        Except.ok (String.mk (renderP (ps.map (topSubst funcs))), cnt) ∧
      ∀ nm : String, getCount cnt nm = ((marksOf ps).map Prod.snd).count nm := by
  refine ⟨(marksOf ps).foldl (fun c m => bumpCount c m.2) [], ?_, ?_⟩
  · rw [expandVars, findMatches_renderP ps hok]
    have hform0 : ∀ m ∈ marksOf ps, ∃ r : List Char,
        m = (String.mk (mkChars r), String.mk r) ∧ r ≠ [] ∧
          ∀ c ∈ r, isClassChar c = true := by
      intro m hm
      obtain ⟨r, hr1, rfl⟩ := marksOf_mem ps m hm
      exact ⟨r, rfl, hok (Piece.mark r) hr1⟩
    have hreg0 : ∀ m ∈ marksOf ps, (funcs.lookup m.2).isSome = true := by
      intro m hm
      obtain ⟨r, hr1, rfl⟩ := marksOf_mem ps m hm
      exact hreg r hr1
    have hval0 : ∀ m ∈ marksOf ps, firstValOk funcs m.2 := by
      intro m hm
      obtain ⟨r, hr1, rfl⟩ := marksOf_mem ps m hm
      exact hval r hr1
    have hstale0 : ∀ m ∈ marksOf ps, getCount [] m.2 ≠ 0 →
        Piece.mark m.2.data ∉ ps := by
      intro m hm hc
      exact absurd (by simp [getCount]) hc
    rw [expandLoop_renderP funcs (marksOf ps) ps [] hok hform0 hreg0 hval0 hstale0]
    rw [substM_top funcs ((marksOf ps).map Prod.snd) ps
      (fun r hr => mark_name_mem_marksOf ps r hr)]
  · intro nm
    rw [getCount_foldl_bump]
    simp [getCount]

end Factory

namespace Factory

theorem c1_witness :
    (∀ p ∈ [Piece.mark ['x'], Piece.lit [' '], Piece.mark ['x']], PieceOk p) ∧
    (∀ r : List Char,
      Piece.mark r ∈ [Piece.mark ['x'], Piece.lit [' '], Piece.mark ['x']] →
      (List.lookup (String.mk r) [("x", cgen)]).isSome = true) ∧
    (∀ r : List Char,
      Piece.mark r ∈ [Piece.mark ['x'], Piece.lit [' '], Piece.mark ['x']] →
      firstValOk [("x", cgen)] (String.mk r)) ∧
    (∃ cnt : Counters,
      expandVars [("x", cgen)]
          (String.mk (renderP [Piece.mark ['x'], Piece.lit [' '], Piece.mark ['x']])) =
        Except.ok (String.mk (renderP
          ([Piece.mark ['x'], Piece.lit [' '], Piece.mark ['x']].map
            (topSubst [("x", cgen)]))), cnt) ∧
      ∀ nm : String, getCount cnt nm =
        ((marksOf [Piece.mark ['x'], Piece.lit [' '], Piece.mark ['x']]).map
          Prod.snd).count nm) :=
  have h1 : ∀ p ∈ [Piece.mark ['x'], Piece.lit [' '], Piece.mark ['x']], PieceOk p := by
    intro p hp
    simp only [List.mem_cons, List.not_mem_nil, or_false] at hp
    rcases hp with rfl | rfl | rfl
    · exact ⟨by decide, by decide⟩
    · intro c hc
      simp only [List.mem_singleton] at hc
      subst hc
      decide
    · exact ⟨by decide, by decide⟩
  have h2 : ∀ r : List Char,
      Piece.mark r ∈ [Piece.mark ['x'], Piece.lit [' '], Piece.mark ['x']] →
      (List.lookup (String.mk r) [("x", cgen)]).isSome = true := by
    intro r hr
    simp only [List.mem_cons, List.not_mem_nil, or_false] at hr
    rcases hr with h | h | h
    · injection h with h2
      subst h2
      rfl
    · cases h
    · injection h with h2
      subst h2
      rfl
  have h3 : ∀ r : List Char,
      Piece.mark r ∈ [Piece.mark ['x'], Piece.lit [' '], Piece.mark ['x']] →
      firstValOk [("x", cgen)] (String.mk r) := by
    intro r hr
    simp only [List.mem_cons, List.not_mem_nil, or_false] at hr
    rcases hr with h | h | h
    · injection h with h2
      subst h2
      exact (by decide : ∀ c ∈ (cgen 0).data, c ≠ '{')
    · cases h
    · injection h with h2
      subst h2
      exact (by decide : ∀ c ∈ (cgen 0).data, c ≠ '{')
  ⟨h1, h2, h3,
    c1_amended_every_occurrence [("x", cgen)]
      [Piece.mark ['x'], Piece.lit [' '], Piece.mark ['x']] h1 h2 h3⟩

end Factory
